import Mathlib

/-
Verification of the strotui widget layer: the text layout engine
(src/widgets/text.rs) and the panel compositor (src/widgets/panel.rs).

Modelling conventions:
- A Rust `String`/`&str` is a list of bytes (`List Nat`); `len()` is byte
  length, widths are byte counts, exactly as in the source.
- Rust panics are modelled as `Except.error` values of type `PanicE`:
  `charBoundary` for a string slice whose index is not a character
  boundary, `subUnderflow` for an unsigned subtraction below zero
  (debug-build semantics; in release the wrapped value makes a later
  slice fail instead), `notImplemented` for the `todo!()` bodies.
- The `while` loops of `get_lines_wrapped` and `get_lines_wrapped_words`
  are modelled with an explicit fuel argument (structural recursion on
  fuel, `none` = the loop is still running after `fuel` iterations).
  This is necessary: the `get_lines_wrapped_words` loop does not
  terminate on some inputs (see the C5 theorem below).
- The ratatui collaborators (Block, Scrollbar, Buffer) are external to
  the repository; panels are modelled with `block = None` (no title),
  the branch in which `Panel::render_outer` returns the outer area
  unchanged, and painting side effects are dropped while every value
  the widget computes (lines, geometry, scrollbar content length) is
  kept.
-/

set_option maxRecDepth 10000

namespace Strotui

/-- Rust panic causes that the widget code can hit. -/
inductive PanicE where
  | charBoundary
  | subUnderflow
  | notImplemented
deriving DecidableEq

/-- The `TextWrap` enum of src/widgets/text.rs. -/
inductive TextWrap where
  | Truncate
  | TruncateWithEllipsis
  | Wrapped
  | WrappedWords
  | WrappedJustified
  | WrappedCentered
  | WrappedRightAligned
deriving DecidableEq

/-- The `Text` struct of src/widgets/text.rs: an owned string plus a wrap policy. -/
structure Text where
  text : List Nat
  wrap : TextWrap
deriving DecidableEq

/-- A UTF-8 continuation byte (0x80..=0xBF). -/
def isContByte (b : Nat) : Bool := decide (128 ≤ b) && decide (b < 192)

/-- Rust `str::is_char_boundary`: index 0, the length, or a non-continuation
byte. Slicing a string at a non-boundary index panics. -/
def isCharBoundary (t : List Nat) (i : Nat) : Bool :=
  decide (i = 0) || decide (i = t.length) ||
    (decide (i < t.length) && !isContByte (t.getD i 0))

/-- Texts whose bytes are all single-byte (ASCII) characters. -/
def allAscii (t : List Nat) : Prop := ∀ b ∈ t, b < 128

instance (t : List Nat) : Decidable (allAscii t) := by
  unfold allAscii; infer_instance

/-- `Text::get_lines_truncate`: one line, the first `min(len, width)` bytes.
The slice `&self.text[..end]` panics when `end` is not a char boundary. -/
def get_lines_truncate (text : List Nat) (width : Nat) :
    Except PanicE (List (List Nat)) :=
  let e := min text.length width
  if isCharBoundary text e then Except.ok [text.take e]
  else Except.error PanicE.charBoundary

/-- `Text::get_lines_wrapped` (policy `Wrapped`): the `while pos <= len` loop,
fuel-indexed; `pos` is the byte cursor. Each iteration slices the window
`&text[pos..end]` (panicking off char boundaries), breaks when the window is
empty, ends the line early at a newline inside the window, else takes the
whole window. -/
def get_lines_wrapped (t : List Nat) (w : Nat) :
    Nat → Nat → Option (Except PanicE (List (List Nat)))
  | 0, _ => none
  | fuel+1, pos =>
    if pos ≤ t.length then
      let e := min (pos + w) t.length
      if isCharBoundary t pos && isCharBoundary t e then
        let line := (t.drop pos).take (e - pos)
        if line.isEmpty then some (Except.ok [])
        else
          match line.findIdx? (· == 10) with
          | some nl =>
            (get_lines_wrapped t w fuel (pos + nl + 1)).map
              (Except.map (fun ls => line.take nl :: ls))
          | none =>
            (get_lines_wrapped t w fuel e).map
              (Except.map (fun ls => line :: ls))
      else some (Except.error PanicE.charBoundary)
    else some (Except.ok [])

/-- Byte index of the last space in a window: Rust `line.rfind(' ')`
(a space is a single-byte character, so the byte scan is the char scan). -/
def lastIdxOf32 (l : List Nat) : Option Nat :=
  ((l.enum.filter (fun p => p.2 == 32)).getLast?).map (fun p => p.1)

/-- The char starts of a byte string: the indices holding non-continuation
bytes. For valid UTF-8 these are exactly the positions `chars()` visits. -/
def charStarts (t : List Nat) : List Nat :=
  (List.range t.length).filter (fun j => !isContByte (t.getD j 0))

/-- Rust `self.text.chars().nth(i) == Some(' ')`: whether the i-th
*character* (not byte) of the text is a space. The source uses this with a
byte offset as `i`, which is the char/byte confusion behind C3 and C5. -/
def nthCharIsSpace (t : List Nat) (i : Nat) : Bool :=
  match (charStarts t)[i]? with
  | some j => t.getD j 0 == 32
  | none => false

/-- The space-skipping inner loop of `get_lines_wrapped_words`:
`while pos < len && text.chars().nth(pos) == Some(' ') { pos += 1 }`.
The first argument is an iteration bound; `t.length - pos` always suffices
because the cursor strictly increases and stops at `t.length`. -/
def skip_spaces_go (t : List Nat) : Nat → Nat → Nat
  | 0, pos => pos
  | b+1, pos =>
    if decide (pos < t.length) && nthCharIsSpace t pos then
      skip_spaces_go t b (pos + 1)
    else pos

def skip_spaces (t : List Nat) (pos : Nat) : Nat :=
  skip_spaces_go t (t.length - pos) pos

/-- `Text::get_lines_wrapped_words` (policy `WrappedWords`), fuel-indexed.
Per iteration: window `&text[pos..end]` (boundary panics modelled), break
when empty; the break point `to` is the window end when the text ends there
or the next byte after the window is a space, else the last space in the
window, else the window end; a newline anywhere in the window wins and the
space-skip loop is not run in that branch (the Rust `continue`). -/
def get_lines_wrapped_words (t : List Nat) (w : Nat) :
    Nat → Nat → Option (Except PanicE (List (List Nat)))
  | 0, _ => none
  | fuel+1, pos =>
    if pos ≤ t.length then
      let e := min (pos + w) t.length
      if isCharBoundary t pos && isCharBoundary t e then
        let line := (t.drop pos).take (e - pos)
        if line.isEmpty then some (Except.ok [])
        else
          let brk :=
            if t.length = e then e
            else if (t.drop e).head? == some 32 then e
            else
              match lastIdxOf32 line with
              | some y => pos + y
              | none => e
          match line.findIdx? (· == 10) with
          | some nl =>
            (get_lines_wrapped_words t w fuel (pos + nl + 1)).map
              (Except.map (fun ls => line.take nl :: ls))
          | none =>
            (get_lines_wrapped_words t w fuel (skip_spaces t brk)).map
              (Except.map (fun ls => (t.drop pos).take (brk - pos) :: ls))
      else some (Except.error PanicE.charBoundary)
    else some (Except.ok [])

/-- `Text::get_lines_wrapped_justified`: `todo!()`, an explicit
"not implemented" panic. -/
def get_lines_wrapped_justified (_text : List Nat) (_width : Nat) :
    Except PanicE (List (List Nat)) :=
  Except.error PanicE.notImplemented

/-- `Text::get_lines_wrapped_centered`: `todo!()`. -/
def get_lines_wrapped_centered (_text : List Nat) (_width : Nat) :
    Except PanicE (List (List Nat)) :=
  Except.error PanicE.notImplemented

/-- `Text::get_lines_wrapped_right_aligned`: `todo!()`. -/
def get_lines_wrapped_right_aligned (_text : List Nat) (_width : Nat) :
    Except PanicE (List (List Nat)) :=
  Except.error PanicE.notImplemented

/-- `Text::get_lines`: dispatch on the wrap policy (TruncateWithEllipsis
lays out exactly like Truncate; the ellipsis is the renderer's job). -/
def Text.get_lines (fuel : Nat) (self : Text) (width : Nat) :
    Option (Except PanicE (List (List Nat))) :=
  match self.wrap with
  | TextWrap.Truncate => some (get_lines_truncate self.text width)
  | TextWrap.TruncateWithEllipsis => some (get_lines_truncate self.text width)
  | TextWrap.Wrapped => get_lines_wrapped self.text width fuel 0
  | TextWrap.WrappedWords => get_lines_wrapped_words self.text width fuel 0
  | TextWrap.WrappedJustified => some (get_lines_wrapped_justified self.text width)
  | TextWrap.WrappedCentered => some (get_lines_wrapped_centered self.text width)
  | TextWrap.WrappedRightAligned => some (get_lines_wrapped_right_aligned self.text width)

/-- `Text::get_height`: `self.get_lines(width).len() as u16`. -/
def Text.get_height (fuel : Nat) (self : Text) (width : Nat) :
    Option (Except PanicE Nat) :=
  (Text.get_lines fuel self width).map (Except.map (fun ls => ls.length % 65536))

/-- Observable outcome of `Text::render_ref`: either the ellipsis branch
painted a truncated line plus "...", or the generic path painted the lines. -/
inductive TextRender where
  | ellipsized (pre : List Nat)
  | plain (lines : List (List Nat))
deriving DecidableEq

/-- `<Text as WidgetRef>::render_ref`, at `width = area.right() - area.left()`.
For `TruncateWithEllipsis`, when the single truncated line's byte length
equals the width, the renderer overwrites the last 3 columns: it evaluates
`width as usize - 3` (underflow panic for width < 3), slices
`&lines[0][..width-3]` (char-boundary panic possible), and paints the prefix
plus "..."; otherwise the generic path paints the lines unvarnished. -/
def Text.render_ref (fuel : Nat) (self : Text) (width : Nat) :
    Option (Except PanicE TextRender) :=
  match Text.get_lines fuel self width with
  | none => none
  | some (Except.error e) => some (Except.error e)
  | some (Except.ok lines) =>
    match self.wrap with
    | TextWrap.TruncateWithEllipsis =>
      if (lines.headD []).length = width then
        if 3 ≤ width then
          if isCharBoundary (lines.headD []) (width - 3) then
            some (Except.ok (TextRender.ellipsized ((lines.headD []).take (width - 3))))
          else some (Except.error PanicE.charBoundary)
        else some (Except.error PanicE.subUnderflow)
      else some (Except.ok (TextRender.plain lines))
    | _ => some (Except.ok (TextRender.plain lines))

/-- The ratatui `Rect`, in character cells. `Rect::new` keeps
`x + width` and `y + height` within u16 range, so `right`/`bottom` are
exact and `right - left = width`, `bottom - top = height`. -/
structure Rect where
  x : Nat
  y : Nat
  width : Nat
  height : Nat
deriving DecidableEq

def Rect.left (r : Rect) : Nat := r.x
def Rect.top (r : Rect) : Nat := r.y
def Rect.right (r : Rect) : Nat := r.x + r.width
def Rect.bottom (r : Rect) : Nat := r.y + r.height

/-- The `Panel` struct (children are `PanelWidget::Text`, the only
variant). `block = None` throughout: title/border drawing is the external
ratatui `Block`, and `Panel::render_outer` then returns the area unchanged,
which is the branch all theorems below exercise. -/
structure Panel where
  scrollbar : Bool
  children : List Text
deriving DecidableEq

/-- The loop body of `Panel::render_children`: for each child,
`height = child.get_height(width).min(area.bottom() - y)` (the u16
subtraction underflows if `y > area.bottom()`, modelled as a panic), the
child is rendered when `y <= area.bottom()`, and `y` advances by the
*clamped* height. Returns the final `y`. -/
def render_children_go (fuel : Nat) (area : Rect) :
    List Text → Nat → Option (Except PanicE Nat)
  | [], y => some (Except.ok y)
  | c :: rest, y =>
    match Text.get_height fuel c (Rect.right area - Rect.left area) with
    | none => none
    | some (Except.error e) => some (Except.error e)
    | some (Except.ok nh) =>
      if Rect.bottom area < y then some (Except.error PanicE.subUnderflow)
      else
        let height := min nh (Rect.bottom area - y)
        if y ≤ Rect.bottom area then
          match Text.render_ref fuel c (Rect.right area - Rect.left area) with
          | none => none
          | some (Except.error e) => some (Except.error e)
          | some (Except.ok _) => render_children_go fuel area rest (y + height)
        else render_children_go fuel area rest (y + height)

/-- `Panel::render_children`: the cursor starts at `area.top()`. -/
def Panel.render_children (fuel : Nat) (self : Panel) (area : Rect) :
    Option (Except PanicE Nat) :=
  render_children_go fuel area self.children (Rect.top area)

/-- `Panel::render_scrollbar`: when the flag is set, the scrollbar area's
height is `area.bottom() - area.top() - 2` (u16 underflow when the area is
shorter than 2 rows), and the content length handed to `ScrollbarState::new`
is `children_height.saturating_sub(display_height)`. Returns that content
length (`none` when the flag is off and nothing is drawn). -/
def Panel.render_scrollbar (self : Panel) (area : Rect)
    (children_height display_height : Nat) : Except PanicE (Option Nat) :=
  if self.scrollbar then
    if Rect.bottom area - Rect.top area < 2 then Except.error PanicE.subUnderflow
    else Except.ok (some (children_height - display_height))
  else Except.ok none

/-- Observable outcome of `<Panel as WidgetRef>::render_ref`. -/
structure PanelOut where
  children_height : Nat
  scroll_content : Option Nat
deriving DecidableEq

/-- `<Panel as WidgetRef>::render_ref`: decoration pass (here: no block, so
`inner = area`), stacking pass, then scrollbar pass with the *outer* area,
the final `y` as `children_height`, and `inner.bottom() - inner.top()` as
`display_height`. -/
def Panel.render_ref (fuel : Nat) (self : Panel) (area : Rect) :
    Option (Except PanicE PanelOut) :=
  let inner := area
  match Panel.render_children fuel self inner with
  | none => none
  | some (Except.error e) => some (Except.error e)
  | some (Except.ok y) =>
    match Panel.render_scrollbar self area y (Rect.bottom inner - Rect.top inner) with
    | Except.error e => some (Except.error e)
    | Except.ok sc => some (Except.ok ⟨y, sc⟩)

/-- Specification-side `WrapExact`, following the words of claim C8 on the
remaining suffix of the text: repeatedly take the next `w` bytes as a line,
except that a newline inside the current window ends the line early at the
newline (the newline byte emitted on no line) and scanning resumes right
after it; stop when the remaining slice is empty. Fuel-indexed with the same
one-unit-per-line budget as the source loop, so the two can be compared at
every fuel. -/
def wrapExactSpecGo (w : Nat) : Nat → List Nat → Option (List (List Nat))
  | 0, _ => none
  | fuel+1, rest =>
    if rest.isEmpty then some []
    else
      let window := rest.take w
      match window.findIdx? (· == 10) with
      | some nl =>
        (wrapExactSpecGo w fuel (rest.drop (nl + 1))).map
          (fun ls => window.take nl :: ls)
      | none =>
        (wrapExactSpecGo w fuel (rest.drop w)).map (fun ls => window :: ls)

/-- Specification-side `WrapWords` on the remaining suffix, following the
words of claim C3. The break point of the window of up to `w` bytes is the
window's end when the window exactly reaches end-of-text or the very next
character after it is a space, else the last space inside the window if any,
else the window's end; a newline inside the window ends the line at the
newline instead. When `skipAfterNl = true` (the claim as frozen) the run of
spaces after *every* emitted line is skipped; with `skipAfterNl = false`
(the amended claim) a line ended at a newline keeps the spaces that follow
it. Fuel-indexed one unit per line, in lockstep with the source loop. -/
def wrapWordsSpecGo (skipAfterNl : Bool) (w : Nat) :
    Nat → List Nat → Option (List (List Nat))
  | 0, _ => none
  | fuel+1, rest =>
    if rest.isEmpty then some []
    else
      let window := rest.take w
      let br :=
        if rest.length ≤ w then window.length
        else if (rest.drop w).head? == some 32 then window.length
        else
          match lastIdxOf32 window with
          | some y => y
          | none => window.length
      match window.findIdx? (· == 10) with
      | some nl =>
        let rest' := rest.drop (nl + 1)
        let rest'' := if skipAfterNl then rest'.dropWhile (· == 32) else rest'
        (wrapWordsSpecGo skipAfterNl w fuel rest'').map
          (fun ls => window.take nl :: ls)
      | none =>
        (wrapWordsSpecGo skipAfterNl w fuel ((rest.drop br).dropWhile (· == 32))).map
          (fun ls => window.take br :: ls)

/-! Helper lemmas. -/

/-- Every position up to the length of an all-ASCII byte string is a
character boundary. -/
lemma ascii_charBoundary {t : List Nat} (ha : allAscii t) {i : Nat}
    (hi : i ≤ t.length) : isCharBoundary t i = true := by
  rcases Nat.eq_or_lt_of_le hi with h | h
  · simp [isCharBoundary, h]
  · have hlt : t[i] < 128 := ha _ (List.getElem_mem h)
    simp [isCharBoundary, h, isContByte, List.getD_eq_getElem t 0 h]
    omega

lemma take_min_length {α : Type} (l : List α) (n : Nat) :
    l.take (min n l.length) = l.take n := by
  rcases le_total n l.length with h | h
  · rw [min_eq_left h]
  · rw [min_eq_right h, List.take_length, List.take_of_length_le h]

lemma drop_min_length {α : Type} (l : List α) (n : Nat) :
    l.drop (min n l.length) = l.drop n := by
  rcases le_total n l.length with h | h
  · rw [min_eq_left h]
  · rw [min_eq_right h, List.drop_length, List.drop_eq_nil_of_le h]

lemma map_ok_comm (f : List (List Nat) → List (List Nat))
    (o : Option (List (List Nat))) :
    Option.map (Except.map f)
        (Option.map (Except.ok : List (List Nat) → Except PanicE (List (List Nat))) o) =
      Option.map Except.ok (Option.map f o) := by
  cases o <;> rfl

lemma findIdx?_lt_length {α : Type} {l : List α} {p : α → Bool} {i : Nat}
    (h : l.findIdx? p = some i) : i < l.length :=
  (List.findIdx?_eq_some_iff_findIdx_eq.mp h).1

lemma lastIdxOf32_lt_length {l : List Nat} {y : Nat}
    (h : lastIdxOf32 l = some y) : y < l.length := by
  unfold lastIdxOf32 at h
  rcases Option.map_eq_some'.mp h with ⟨p, hp, hy⟩
  have hmem : p ∈ l.enum := List.mem_of_mem_filter (List.mem_of_mem_getLast? hp)
  have := List.fst_lt_of_mem_enum hmem
  omega

/-- On all-ASCII text the char starts are every byte index. -/
lemma charStarts_ascii {t : List Nat} (ha : allAscii t) :
    charStarts t = List.range t.length := by
  unfold charStarts
  rw [List.filter_eq_self]
  intro j hj
  have hjl : j < t.length := List.mem_range.mp hj
  have hlt : t[j] < 128 := ha _ (List.getElem_mem hjl)
  simp [isContByte, List.getD_eq_getElem t 0 hjl, List.getElem?_eq_getElem hjl]
  omega

/-- On all-ASCII text the i-th char is the i-th byte, so the source's
`chars().nth(pos)` test coincides with a byte test. -/
lemma nthCharIsSpace_ascii {t : List Nat} (ha : allAscii t) {i : Nat}
    (hi : i < t.length) : nthCharIsSpace t i = (t.getD i 0 == 32) := by
  unfold nthCharIsSpace
  rw [charStarts_ascii ha, List.getElem?_range hi]

/-- On all-ASCII text the space-skip loop advances the byte cursor past
exactly the leading run of spaces of the remaining suffix. -/
lemma skip_spaces_go_ascii {t : List Nat} (ha : allAscii t) :
    ∀ b pos, t.length - pos ≤ b →
      t.drop (skip_spaces_go t b pos) = (t.drop pos).dropWhile (· == 32) ∧
      pos ≤ skip_spaces_go t b pos ∧
      skip_spaces_go t b pos ≤ max pos t.length := by
  intro b
  induction b with
  | zero =>
    intro pos hb
    have hp : t.length ≤ pos := by omega
    have h1 : t.drop pos = [] := List.drop_eq_nil_of_le hp
    simp [skip_spaces_go, h1]
  | succ b ih =>
    intro pos hb
    by_cases hcond : (decide (pos < t.length) && nthCharIsSpace t pos) = true
    · have hparts := (Bool.and_eq_true _ _).mp hcond
      have hlt : pos < t.length := by simpa using hparts.1
      have hsp : t.getD pos 0 = 32 := by
        have h2 := hparts.2
        rw [nthCharIsSpace_ascii ha hlt] at h2
        simpa using h2
      have hstep : skip_spaces_go t (b + 1) pos = skip_spaces_go t b (pos + 1) := by
        simp [skip_spaces_go, hcond]
      rcases ih (pos + 1) (by omega) with ⟨hd, hle, hub⟩
      refine ⟨?_, ?_, ?_⟩
      · rw [hstep, hd, List.drop_eq_getElem_cons hlt, List.dropWhile_cons]
        have h32 : t[pos] = 32 := by
          rw [← List.getD_eq_getElem t 0 hlt]
          exact hsp
        simp [h32]
      · rw [hstep]; omega
      · rw [hstep]; omega
    · have hc' : (decide (pos < t.length) && nthCharIsSpace t pos) = false := by
        revert hcond; cases (decide (pos < t.length) && nthCharIsSpace t pos) <;> simp
      have hstep : skip_spaces_go t (b + 1) pos = pos := by
        simp [skip_spaces_go, hc']
      refine ⟨?_, by omega, by omega⟩
      rw [hstep]
      by_cases hlt : pos < t.length
      · have hns : nthCharIsSpace t pos = false := by
          cases hnn : nthCharIsSpace t pos
          · rfl
          · exfalso; apply hcond; simp [hlt, hnn]
        have hnsp : ¬ t.getD pos 0 = 32 := by
          rw [nthCharIsSpace_ascii ha hlt] at hns
          simpa using hns
        rw [List.drop_eq_getElem_cons hlt, List.dropWhile_cons]
        have h32 : ¬ t[pos] = 32 := by
          rw [← List.getD_eq_getElem t 0 hlt]
          exact hnsp
        simp [h32]
      · have h1 : t.drop pos = [] := List.drop_eq_nil_of_le (by omega)
        simp [h1]

lemma skip_spaces_ascii {t : List Nat} (ha : allAscii t) {pos : Nat}
    (hpos : pos ≤ t.length) :
    t.drop (skip_spaces t pos) = (t.drop pos).dropWhile (· == 32) ∧
      pos ≤ skip_spaces t pos ∧ skip_spaces t pos ≤ t.length := by
  rcases skip_spaces_go_ascii ha (t.length - pos) pos (by omega) with ⟨h1, h2, h3⟩
  unfold skip_spaces
  exact ⟨h1, h2, by omega⟩

/-- Lockstep refinement for `WrapExact` on ASCII text: at every fuel, the
source loop from byte cursor `pos` computes exactly the claim's algorithm on
the remaining suffix. -/
lemma wrapped_lockstep {t : List Nat} {w : Nat} (ha : allAscii t) (hw : 1 ≤ w) :
    ∀ fuel pos, pos ≤ t.length →
      get_lines_wrapped t w fuel pos =
        Option.map Except.ok (wrapExactSpecGo w fuel (t.drop pos)) := by
  intro fuel
  induction fuel with
  | zero => intro pos _; rfl
  | succ n ih =>
    intro pos hpos
    have hb1 : isCharBoundary t pos = true := ascii_charBoundary ha hpos
    have hb2 : isCharBoundary t (min (pos + w) t.length) = true :=
      ascii_charBoundary ha (min_le_right _ _)
    rcases Nat.eq_or_lt_of_le hpos with heq | hlt
    · have hdrop : t.drop pos = [] := by rw [heq, List.drop_length]
      have hmin : min (pos + w) t.length = t.length := by omega
      have hb3 : isCharBoundary t t.length = true := ascii_charBoundary ha le_rfl
      simp [get_lines_wrapped, wrapExactSpecGo, hpos, hb1, hb2, hb3, hdrop, hmin]
    · have hne : t.drop pos ≠ [] := by
        rw [ne_eq, List.drop_eq_nil_iff]; omega
      have hlineeq : (t.drop pos).take (min (pos + w) t.length - pos) =
          (t.drop pos).take w := by
        have h1 : min (pos + w) t.length - pos = min w (t.length - pos) := by omega
        rw [h1, ← List.length_drop, take_min_length]
      have hlinene : (t.drop pos).take w ≠ [] := by
        rw [ne_eq, List.take_eq_nil_iff]
        push_neg
        exact ⟨by omega, hne⟩
      have hie1 : ¬ ((t.drop pos).take w).isEmpty = true := by
        rw [List.isEmpty_iff]; exact hlinene
      have hie2 : ¬ (t.drop pos).isEmpty = true := by
        rw [List.isEmpty_iff]; exact hne
      simp only [get_lines_wrapped, wrapExactSpecGo, hpos, if_true, hb1, hb2,
        Bool.and_self, hlineeq]
      rw [if_neg hie1, if_neg hie2]
      cases hfi : ((t.drop pos).take w).findIdx? (· == 10) with
      | some nl =>
        dsimp only
        have hnl : nl < ((t.drop pos).take w).length := findIdx?_lt_length hfi
        rw [List.length_take, List.length_drop] at hnl
        have hdd : (t.drop pos).drop (nl + 1) = t.drop (pos + (nl + 1)) :=
          List.drop_drop (nl + 1) pos t
        have harg : pos + nl + 1 = pos + (nl + 1) := by omega
        rw [hdd, harg, ih (pos + (nl + 1)) (by omega)]
        exact map_ok_comm _ _
      | none =>
        dsimp only
        have hdw : t.drop (min (pos + w) t.length) = (t.drop pos).drop w := by
          rw [drop_min_length, List.drop_drop]
        rw [ih (min (pos + w) t.length) (by omega), hdw]
        exact map_ok_comm _ _

/-- Lockstep refinement for `WrapWords` on ASCII text: at every fuel, the
source loop from byte cursor `pos` computes exactly the amended claim's
algorithm (`skipAfterNl = false`) on the remaining suffix. -/
lemma wrapped_words_lockstep {t : List Nat} {w : Nat} (ha : allAscii t)
    (hw : 1 ≤ w) :
    ∀ fuel pos, pos ≤ t.length →
      get_lines_wrapped_words t w fuel pos =
        Option.map Except.ok (wrapWordsSpecGo false w fuel (t.drop pos)) := by
  intro fuel
  induction fuel with
  | zero => intro pos _; rfl
  | succ n ih =>
    intro pos hpos
    have hb1 : isCharBoundary t pos = true := ascii_charBoundary ha hpos
    have hb2 : isCharBoundary t (min (pos + w) t.length) = true :=
      ascii_charBoundary ha (min_le_right _ _)
    rcases Nat.eq_or_lt_of_le hpos with heq | hlt
    · have hdrop : t.drop pos = [] := by rw [heq, List.drop_length]
      have hmin : min (pos + w) t.length = t.length := by omega
      have hb3 : isCharBoundary t t.length = true := ascii_charBoundary ha le_rfl
      simp [get_lines_wrapped_words, wrapWordsSpecGo, hpos, hb1, hb2, hb3,
        hdrop, hmin]
    · have hne : t.drop pos ≠ [] := by
        rw [ne_eq, List.drop_eq_nil_iff]; omega
      have hlineeq : (t.drop pos).take (min (pos + w) t.length - pos) =
          (t.drop pos).take w := by
        have h1 : min (pos + w) t.length - pos = min w (t.length - pos) := by omega
        rw [h1, ← List.length_drop, take_min_length]
      have hlinene : (t.drop pos).take w ≠ [] := by
        rw [ne_eq, List.take_eq_nil_iff]
        push_neg
        exact ⟨by omega, hne⟩
      have hie1 : ¬ ((t.drop pos).take w).isEmpty = true := by
        rw [List.isEmpty_iff]; exact hlinene
      have hie2 : ¬ (t.drop pos).isEmpty = true := by
        rw [List.isEmpty_iff]; exact hne
      have hwl : ((t.drop pos).take w).length = min (pos + w) t.length - pos := by
        rw [List.length_take, List.length_drop]; omega
      simp only [get_lines_wrapped_words, wrapWordsSpecGo, hpos, if_true, hb1,
        hb2, Bool.and_self, hlineeq]
      rw [if_neg hie1, if_neg hie2]
      cases hfi : ((t.drop pos).take w).findIdx? (· == 10) with
      | some nl =>
        dsimp only
        have hnl : nl < ((t.drop pos).take w).length := findIdx?_lt_length hfi
        rw [List.length_take, List.length_drop] at hnl
        have hdd : (t.drop pos).drop (nl + 1) = t.drop (pos + (nl + 1)) :=
          List.drop_drop (nl + 1) pos t
        have harg : pos + nl + 1 = pos + (nl + 1) := by omega
        rw [hdd, harg, ih (pos + (nl + 1)) (by omega)]
        simp only [Bool.false_eq_true, if_false]
        exact map_ok_comm _ _
      | none =>
        dsimp only
        by_cases hc1 : t.length = min (pos + w) t.length
        · -- window reaches end-of-text: break at the window end
          have hs1 : (t.drop pos).length ≤ w := by
            rw [List.length_drop]; omega
          rw [if_pos hc1, if_pos hs1, hlineeq, List.take_length]
          have hskip := skip_spaces_ascii ha (min_le_right (pos + w) t.length)
          have harg : ((t.drop pos).drop ((t.drop pos).take w).length).dropWhile
              (· == 32) = t.drop (skip_spaces t (min (pos + w) t.length)) := by
            rw [hwl, List.drop_drop]
            have h2 : pos + (min (pos + w) t.length - pos) =
                min (pos + w) t.length := by omega
            rw [h2]
            exact hskip.1.symm
          rw [harg, ih (skip_spaces t (min (pos + w) t.length)) hskip.2.2]
          exact map_ok_comm _ _
        · have he : min (pos + w) t.length = pos + w := by omega
          have hlen : pos + w < t.length := by omega
          have hs1 : ¬ (t.drop pos).length ≤ w := by
            rw [List.length_drop]; omega
          rw [if_neg hc1, if_neg hs1, List.drop_drop, he]
          by_cases hc2 : ((t.drop (pos + w)).head? == some 32) = true
          · rw [if_pos hc2, if_pos hc2, List.take_length]
            have hwleq : ((t.drop pos).take w).length = w := by
              rw [List.length_take, List.length_drop]; omega
            have hemit : pos + w - pos = w := by omega
            rw [hwleq, hemit]
            have hskip := skip_spaces_ascii ha (le_of_lt hlen)
            have harg : ((t.drop pos).drop w).dropWhile (· == 32) =
                t.drop (skip_spaces t (pos + w)) := by
              rw [List.drop_drop]
              exact hskip.1.symm
            rw [harg, ih (skip_spaces t (pos + w)) hskip.2.2]
            exact map_ok_comm _ _
          · rw [if_neg hc2, if_neg hc2]
            cases hlast : lastIdxOf32 ((t.drop pos).take w) with
            | some y =>
              dsimp only
              have hy : y < ((t.drop pos).take w).length :=
                lastIdxOf32_lt_length hlast
              rw [List.length_take, List.length_drop] at hy
              have hyw : y ≤ w := by omega
              have hemit : pos + y - pos = y := by omega
              have hspecemit : ((t.drop pos).take w).take y =
                  (t.drop pos).take y := by
                rw [List.take_take, min_eq_left hyw]
              rw [hemit, hspecemit]
              have hple : pos + y ≤ t.length := by omega
              have hskip := skip_spaces_ascii ha hple
              have harg : ((t.drop pos).drop y).dropWhile (· == 32) =
                  t.drop (skip_spaces t (pos + y)) := by
                rw [List.drop_drop]
                exact hskip.1.symm
              rw [harg, ih (skip_spaces t (pos + y)) hskip.2.2]
              exact map_ok_comm _ _
            | none =>
              dsimp only
              have hwleq : ((t.drop pos).take w).length = w := by
                rw [List.length_take, List.length_drop]; omega
              have hemit : pos + w - pos = w := by omega
              rw [List.take_length, hwleq, hemit]
              have hskip := skip_spaces_ascii ha (le_of_lt hlen)
              have harg : ((t.drop pos).drop w).dropWhile (· == 32) =
                  t.drop (skip_spaces t (pos + w)) := by
                rw [List.drop_drop]
                exact hskip.1.symm
              rw [harg, ih (skip_spaces t (pos + w)) hskip.2.2]
              exact map_ok_comm _ _

/-! Claim theorems. -/

/-- C1: refuted on the code (code bug). For the panel with a single
three-line child (text "a\nb\nc", default WrappedWords policy) stacked into
the inner rectangle (0,0,5,2), the running `y` after `render_children` is 2,
the top plus the *clamped* height, while the child's natural height
`get_height(5)` is 3: the loop advances `y` by
`get_height(width).min(area.bottom() - y)`, so the final `y` can never
exceed `area.bottom()` and does not equal top + the sum of unclamped
natural heights (0 + 3 = 3) as the claim states. -/
theorem c1_running_y_clamped :
    Panel.render_children 20 ⟨true, [⟨[97, 10, 98, 10, 99], TextWrap.WrappedWords⟩]⟩
        ⟨0, 0, 5, 2⟩ = some (Except.ok 2) ∧
    Text.get_height 20 ⟨[97, 10, 98, 10, 99], TextWrap.WrappedWords⟩ 5 =
        some (Except.ok 3) ∧
    (2 : Nat) ≠ 0 + 3 :=
  ⟨rfl, rfl, by decide⟩

/-- C2: refuted on the code (code bug). An untitled panel with the
scrollbar flag and one child "a" (natural height 1), rendered into the
rectangle (0,5,3,3): the content (1 row) fits in the 3-row viewport, yet
the content length handed to the scrollbar painter is 3, not 0, because the
code computes `children_height.saturating_sub(display_height)` with
`children_height` the *absolute* final cursor (inner.top + clamped heights
= 6) and `display_height` the *relative* viewport height (3). -/
theorem c2_scrollbar_thumb_eval :
    Panel.render_ref 20 ⟨true, [⟨[97], TextWrap.WrappedWords⟩]⟩ ⟨0, 5, 3, 3⟩ =
        some (Except.ok ⟨6, some 3⟩) ∧
    Text.get_height 20 ⟨[97], TextWrap.WrappedWords⟩ 3 = some (Except.ok 1) ∧
    ((1 : Nat) ≤ 3 ∧ (3 : Nat) ≠ 0) :=
  ⟨rfl, rfl, by decide⟩

/-- C3 counterexample: on the ASCII text "ab\n cd" at width 10, the source
emits the lines ["ab", " cd"]: the space after the newline-broken line "ab"
is NOT skipped (the Rust `continue` bypasses the space-skip loop), while
the claim's algorithm — skip the run of spaces after *each* emitted line,
spaces never emitted on any line — yields ["ab", "cd"]. -/
theorem c3_counterexample :
    get_lines_wrapped_words [97, 98, 10, 32, 99, 100] 10 20 0 =
        some (Except.ok [[97, 98], [32, 99, 100]]) ∧
    wrapWordsSpecGo true 10 20 [97, 98, 10, 32, 99, 100] =
        some [[97, 98], [99, 100]] ∧
    [[97, 98], [32, 99, 100]] ≠ [[97, 98], [99, 100]] :=
  ⟨rfl, rfl, by decide⟩

/-- C3 (amended): for every ASCII text and width w ≥ 1, at every fuel, the
WrapWords loop computes exactly the claim's break-point algorithm with the
one correction the counterexample forces: the immediately-following run of
spaces is skipped only after a line broken at the computed break point; a
line ended early at a newline keeps the spaces that follow it (they start
the next line). (On non-ASCII text the space-skip reads the character at
the byte offset's ordinal position and misbehaves; see C5.) -/
theorem c3_amended_wrap_words_ascii (t : List Nat) (w fuel : Nat)
    (ha : allAscii t) (hw : 1 ≤ w) :
    get_lines_wrapped_words t w fuel 0 =
      Option.map Except.ok (wrapWordsSpecGo false w fuel t) := by
  have h := wrapped_words_lockstep ha hw fuel 0 (Nat.zero_le _)
  simpa using h

/-- C3 witness: the amended equivalence evaluated on "a b" at width 2. -/
theorem c3_witness :
    get_lines_wrapped_words [97, 32, 98] 2 10 0 =
      Option.map Except.ok (wrapWordsSpecGo false 2 10 [97, 32, 98]) ∧
    wrapWordsSpecGo false 2 10 [97, 32, 98] = some [[97], [98]] :=
  ⟨c3_amended_wrap_words_ascii [97, 32, 98] 2 10 (by decide) (by decide), rfl⟩

/-- C4: confirmed. For every text, width and fuel, the three reserved
policies produce the explicit "not implemented" failure (the `todo!()`
panic) and never any line sequence, so no silent fallback to another
policy is possible. -/
theorem c4_reserved_policies_unimplemented (fuel : Nat) (t : List Nat) (w : Nat) :
    Text.get_lines fuel ⟨t, TextWrap.WrappedJustified⟩ w =
        some (Except.error PanicE.notImplemented) ∧
    Text.get_lines fuel ⟨t, TextWrap.WrappedCentered⟩ w =
        some (Except.error PanicE.notImplemented) ∧
    Text.get_lines fuel ⟨t, TextWrap.WrappedRightAligned⟩ w =
        some (Except.error PanicE.notImplemented) ∧
    ∀ lines : List (List Nat),
      Text.get_lines fuel ⟨t, TextWrap.WrappedJustified⟩ w ≠
          some (Except.ok lines) ∧
      Text.get_lines fuel ⟨t, TextWrap.WrappedCentered⟩ w ≠
          some (Except.ok lines) ∧
      Text.get_lines fuel ⟨t, TextWrap.WrappedRightAligned⟩ w ≠
          some (Except.ok lines) := by
  refine ⟨rfl, rfl, rfl, ?_⟩
  intro lines
  refine ⟨?_, ?_, ?_⟩ <;>
    simp [Text.get_lines, get_lines_wrapped_justified, get_lines_wrapped_centered,
      get_lines_wrapped_right_aligned]

/-- C5 helper: with the cursor stuck at byte 2 of "é abc" (width 2), the
WrapWords loop never finishes at any fuel: the window " a" has its last
space at relative index 0, so the break point equals the cursor, and the
space at byte 2 is not skipped because `chars().nth(2)` inspects the third
*character* (the letter a) instead of the byte at offset 2; the iteration
pushes an empty line and repeats with an unchanged cursor. -/
lemma c5_loop_stuck :
    ∀ n, get_lines_wrapped_words [195, 169, 32, 97, 98, 99] 2 n 2 = none := by
  intro n
  induction n with
  | zero => rfl
  | succ n ih =>
    have h : get_lines_wrapped_words [195, 169, 32, 97, 98, 99] 2 (n + 1) 2 =
        (get_lines_wrapped_words [195, 169, 32, 97, 98, 99] 2 n 2).map
          (Except.map (fun ls => [] :: ls)) := rfl
    rw [h, ih]
    rfl

/-- C5: refuted on the code (code bug). On the text "é abc"
(bytes C3 A9 20 61 62 63) at width 2 the WrapWords layout does not
terminate: for every fuel the loop is still running (it neither returns
lines nor panics), contradicting the claim that every implemented policy's
line computation always returns synchronously. -/
theorem c5_wrap_words_loop_forever :
    ∀ fuel, get_lines_wrapped_words [195, 169, 32, 97, 98, 99] 2 fuel 0 = none := by
  intro fuel
  cases fuel with
  | zero => rfl
  | succ n =>
    have h : get_lines_wrapped_words [195, 169, 32, 97, 98, 99] 2 (n + 1) 0 =
        (get_lines_wrapped_words [195, 169, 32, 97, 98, 99] 2 n 2).map
          (Except.map (fun ls => [195, 169] :: ls)) := rfl
    rw [h, c5_loop_stuck]
    rfl

/-- C6: refuted on the code (code bug). Truncating the two-byte character
"é" (bytes C3 A9) to width 1 panics: `&self.text[..1]` is not a character
boundary, so multibyte input crashes the layout instead of producing a
deterministic line sequence as the claim states. -/
theorem c6_multibyte_truncate_panics :
    Text.get_lines 1 ⟨[195, 169], TextWrap.Truncate⟩ 1 =
        some (Except.error PanicE.charBoundary) ∧
    get_lines_truncate [195, 169] 1 = Except.error PanicE.charBoundary :=
  ⟨rfl, rfl⟩

/-- C7: confirmed. For every text and width (with the truncation point on a
character boundary, automatic for ASCII and for width 0): both Truncate and
TruncateEllipsis lay out exactly one line, the first `min(len, width)`
bytes; at render time (for widths with room for the 3-column marker) the
ellipsis overwrite happens if and only if that single line's length equals
the width; and a text shorter than the width renders plain, never
ellipsized. -/
theorem c7_truncate_and_ellipsis (t : List Nat) (w fuel : Nat)
    (hb : isCharBoundary t (min t.length w) = true)
    (h3 : 3 ≤ w)
    (hb2 : isCharBoundary (t.take (min t.length w)) (w - 3) = true) :
    Text.get_lines fuel ⟨t, TextWrap.Truncate⟩ w =
        some (Except.ok [t.take (min t.length w)]) ∧
    Text.get_lines fuel ⟨t, TextWrap.TruncateWithEllipsis⟩ w =
        some (Except.ok [t.take (min t.length w)]) ∧
    (Text.render_ref fuel ⟨t, TextWrap.TruncateWithEllipsis⟩ w =
        some (Except.ok (TextRender.ellipsized
          ((t.take (min t.length w)).take (w - 3)))) ↔
      min t.length w = w) ∧
    (t.length < w →
      Text.render_ref fuel ⟨t, TextWrap.TruncateWithEllipsis⟩ w =
        some (Except.ok (TextRender.plain [t.take (min t.length w)]))) := by
  have htr : get_lines_truncate t w = Except.ok [t.take (min t.length w)] := by
    simp only [get_lines_truncate]
    simp [hb]
  have hlines1 : Text.get_lines fuel ⟨t, TextWrap.Truncate⟩ w =
      some (Except.ok [t.take (min t.length w)]) := by
    show some (get_lines_truncate t w) = _
    rw [htr]
  have hlines2 : Text.get_lines fuel ⟨t, TextWrap.TruncateWithEllipsis⟩ w =
      some (Except.ok [t.take (min t.length w)]) := by
    show some (get_lines_truncate t w) = _
    rw [htr]
  have hlen : (t.take (min t.length w)).length = min t.length w := by
    rw [List.length_take]; omega
  have hred : Text.render_ref fuel ⟨t, TextWrap.TruncateWithEllipsis⟩ w =
      if min t.length w = w then
        if isCharBoundary (t.take (min t.length w)) (w - 3) then
          some (Except.ok (TextRender.ellipsized
            ((t.take (min t.length w)).take (w - 3))))
        else some (Except.error PanicE.charBoundary)
      else some (Except.ok (TextRender.plain [t.take (min t.length w)])) := by
    simp only [Text.render_ref]
    rw [hlines2]
    dsimp only
    simp only [List.headD_cons, hlen]
    rw [if_pos h3]
  refine ⟨hlines1, hlines2, ?_, ?_⟩
  · rw [hred]
    by_cases hmw : min t.length w = w
    · have hb2' := hb2
      simp only [hmw] at hb2'
      simp [hmw, hb2']
    · simp [hmw]
  · intro hlw
    have hmw : ¬ min t.length w = w := by omega
    rw [hred, if_neg hmw]

/-- C7 witness: "abcd" at width 3 is ellipsized (its truncated line "abc"
fills the width exactly). -/
theorem c7_witness :
    Text.render_ref 1 ⟨[97, 98, 99, 100], TextWrap.TruncateWithEllipsis⟩ 3 =
      some (Except.ok (TextRender.ellipsized [])) :=
  ((c7_truncate_and_ellipsis [97, 98, 99, 100] 3 1 (by decide) (by decide)
      (by decide)).2.2.1).mpr (by decide)

/-- C8 counterexample: WrapExact on the two-byte character "é" at width 1
panics on the char-boundary check of the first window slice, while the
claim's algorithm (take the next 1 byte as a line, repeatedly) would
produce the two one-byte lines. -/
theorem c8_counterexample :
    get_lines_wrapped [195, 169] 1 3 0 =
        some (Except.error PanicE.charBoundary) ∧
    wrapExactSpecGo 1 3 [195, 169] = some [[195], [169]] :=
  ⟨rfl, rfl⟩

/-- C8 (amended): for every ASCII text (each byte a single-byte character)
and width w ≥ 1, at every fuel, the WrapExact loop computes exactly the
claim's algorithm: repeatedly take the next w bytes of the remaining text
as a line, a newline inside the window ending the line early at the
newline (the newline byte on no line) with scanning resuming right after
it, terminating when the remaining slice is empty. On text where a window
end splits a multi-byte character the slice panics instead (see the
counterexample). -/
theorem c8_amended_wrap_exact_ascii (t : List Nat) (w fuel : Nat)
    (ha : allAscii t) (hw : 1 ≤ w) :
    get_lines_wrapped t w fuel 0 =
      Option.map Except.ok (wrapExactSpecGo w fuel t) := by
  have h := wrapped_lockstep ha hw fuel 0 (Nat.zero_le _)
  simpa using h

/-- C8 witness: the claim's own example, WrapExact("abcdef", 2) =
["ab", "cd", "ef"]. -/
theorem c8_witness :
    get_lines_wrapped [97, 98, 99, 100, 101, 102] 2 7 0 =
      Option.map Except.ok (wrapExactSpecGo 2 7 [97, 98, 99, 100, 101, 102]) ∧
    wrapExactSpecGo 2 7 [97, 98, 99, 100, 101, 102] =
      some [[97, 98], [99, 100], [101, 102]] :=
  ⟨c8_amended_wrap_exact_ascii [97, 98, 99, 100, 101, 102] 2 7
      (by decide) (by decide), rfl⟩

/-- C9 counterexample: rendering a panel with the scrollbar flag set into a
rectangle of height 1 does not clamp to a no-op: the scrollbar pass
computes `area.bottom() - area.top() - 2` in unsigned arithmetic, which
underflows (a panic in debug builds), refuting the claim that undersized
rectangles never underflow geometry arithmetic. -/
theorem c9_counterexample :
    Panel.render_ref 1 ⟨true, []⟩ ⟨0, 0, 5, 1⟩ =
      some (Except.error PanicE.subUnderflow) := rfl

/-- C9 (amended): for every panel with the scrollbar flag set and every
outer rectangle of height < 2, whenever the stacking pass completes, the
render fails in the scrollbar pass with the unsigned underflow of
`bottom - top - 2`: small rectangles are not clamped to a zero-size no-op
render. -/
theorem c9_amended_small_rect_underflow (p : Panel) (area : Rect)
    (fuel y : Nat) (hsb : p.scrollbar = true) (hh : area.height < 2)
    (hch : Panel.render_children fuel p area = some (Except.ok y)) :
    Panel.render_ref fuel p area = some (Except.error PanicE.subUnderflow) := by
  have hsc : Panel.render_scrollbar p area y
      (Rect.bottom area - Rect.top area) = Except.error PanicE.subUnderflow := by
    unfold Panel.render_scrollbar
    rw [hsb]
    have hbt : Rect.bottom area - Rect.top area < 2 := by
      unfold Rect.bottom Rect.top
      omega
    simp [hbt]
  simp only [Panel.render_ref]
  rw [hch]
  dsimp only
  rw [hsc]

/-- C9 witness: the amended theorem applied to an empty panel at the
rectangle (1,1,3,0). -/
theorem c9_witness :
    Panel.render_ref 2 ⟨true, []⟩ ⟨1, 1, 3, 0⟩ =
      some (Except.error PanicE.subUnderflow) :=
  c9_amended_small_rect_underflow ⟨true, []⟩ ⟨1, 1, 3, 0⟩ 2 1 rfl (by decide) rfl

/-- C10: confirmed. For every text at least as long as the width and every
width < 3, rendering with TruncateWithEllipsis fails: when the truncation
point is a character boundary the single truncated line fills the width
exactly, the ellipsis branch is entered, and `width as usize - 3`
underflows (`subUnderflow`); in every case (boundary or not) the render
ends in an error rather than completing. The spec states no lower bound on
the width for the ellipsis policy. -/
theorem c10_ellipsis_width_underflow (t : List Nat) (w fuel : Nat)
    (hw3 : w < 3) (hwl : w ≤ t.length) :
    (isCharBoundary t w = true →
      Text.render_ref fuel ⟨t, TextWrap.TruncateWithEllipsis⟩ w =
        some (Except.error PanicE.subUnderflow)) ∧
    ∃ e, Text.render_ref fuel ⟨t, TextWrap.TruncateWithEllipsis⟩ w =
        some (Except.error e) := by
  have hmin : min t.length w = w := by omega
  by_cases hb : isCharBoundary t w = true
  · have htr : get_lines_truncate t w = Except.ok [t.take w] := by
      simp only [get_lines_truncate]
      rw [hmin]
      simp [hb]
    have hlines : Text.get_lines fuel ⟨t, TextWrap.TruncateWithEllipsis⟩ w =
        some (Except.ok [t.take w]) := by
      show some (get_lines_truncate t w) = _
      rw [htr]
    have hlen : (t.take w).length = w := by
      rw [List.length_take]; omega
    have hr : Text.render_ref fuel ⟨t, TextWrap.TruncateWithEllipsis⟩ w =
        some (Except.error PanicE.subUnderflow) := by
      simp only [Text.render_ref]
      rw [hlines]
      dsimp only
      simp only [List.headD_cons, hlen]
      rw [if_neg (by omega : ¬ 3 ≤ w)]
      simp
    exact ⟨fun _ => hr, ⟨PanicE.subUnderflow, hr⟩⟩
  · have htr : get_lines_truncate t w = Except.error PanicE.charBoundary := by
      simp only [get_lines_truncate]
      rw [hmin]
      simp [hb]
    have hlines : Text.get_lines fuel ⟨t, TextWrap.TruncateWithEllipsis⟩ w =
        some (Except.error PanicE.charBoundary) := by
      show some (get_lines_truncate t w) = _
      rw [htr]
    have hr : Text.render_ref fuel ⟨t, TextWrap.TruncateWithEllipsis⟩ w =
        some (Except.error PanicE.charBoundary) := by
      simp only [Text.render_ref]
      rw [hlines]
    exact ⟨fun hbb => absurd hbb hb, ⟨PanicE.charBoundary, hr⟩⟩

/-- C10 witness: "ab" rendered with TruncateWithEllipsis at width 2 fails
with the unsigned underflow of `width - 3`. -/
theorem c10_witness :
    Text.render_ref 1 ⟨[97, 98], TextWrap.TruncateWithEllipsis⟩ 2 =
      some (Except.error PanicE.subUnderflow) :=
  (c10_ellipsis_width_underflow [97, 98] 2 1 (by decide) (by decide)).1 (by decide)

end Strotui
